import Mathlib

/-!
Shallow embedding of the MicrotonalStepSequencer core (namespace `sequence` in the
C++ sources) together with proofs about the spec's claims.

Conventions of the embedding:
* C++ `float` values (velocities, delays, gates, cents, sample offsets) are modelled
  as exact rationals `ℚ`; the claims under study are about the arithmetic structure
  of the code, not about floating-point rounding.
* C++ `int` is modelled as `ℤ`; `/` and `%` on C++ ints truncate towards zero and are
  modelled by `Int.tdiv` and `Int.tmod`.
* `std::size_t` / `std::uint32_t` values are modelled as `ℕ`; where unsigned
  wrap-around is semantically relevant (the subtraction loop of `pattern_contains`)
  the arithmetic is performed explicitly modulo `2 ^ 64`.
* a `static_cast` from a non-negative floating value to an unsigned integer truncates
  towards zero, i.e. takes the floor (a negative source value would be UB in C++).
* functions that `throw` are modelled as `Option`-valued, returning `none` exactly
  when the source throws.
-/

set_option maxHeartbeats 1000000

namespace sequence

/-- From include/sequence/sequence.hpp: a musical note.  `interval` is the scale
degree relative to the tuning's base note; `velocity`, `delay` and `gate` are
fractions in `[0, 1]` (modelled as exact rationals). -/
structure Note where
  interval : ℤ
  velocity : ℚ
  delay : ℚ
  gate : ℚ
deriving DecidableEq

instance : Inhabited Note := ⟨⟨0, 7/10, 0, 1⟩⟩

/-- From include/sequence/sequence.hpp: `Cell = std::variant<Note, Rest, Sequence>`,
where a `Sequence` holds `std::vector<Cell> cells`.  The three variants become the
three constructors of a nested inductive type. -/
inductive Cell
  | note (n : Note)
  | rest
  | seq (cells : List Cell)

/-- From include/sequence/time_signature.hpp. -/
structure TimeSignature where
  numerator : ℕ
  denominator : ℕ
deriving DecidableEq

/-- Measure as used by src/midi.cpp (`measure.cell` plus a time signature). -/
structure Measure where
  cell : Cell
  time_signature : TimeSignature

/-- `using Phrase = std::vector<Measure>`. -/
abbrev Phrase := List Measure

/-- From include/sequence/tuning.hpp: interval table in cents plus the octave span. -/
structure Tuning where
  intervals : List ℚ
  octave : ℚ
deriving DecidableEq

/-- From include/sequence/pattern.hpp: an offset and a cyclic interval list. -/
structure Pattern where
  offset : ℕ
  intervals : List ℕ
deriving DecidableEq

/-- Width of `std::size_t` on the reference platform: unsigned arithmetic is
performed modulo this constant. -/
def U64 : ℕ := 2 ^ 64

/-- One loop of `PatternView::Iterator` / `ConstPatternView::ConstIterator`
(include/sequence/pattern.hpp).  State: current `index_` and `interval_index_`.
The iteration stops when `index_` equals the container size `N` (the `end()`
sentinel); otherwise it visits `index_`, then advances by the current interval —
`index_ += interval` is `std::size_t` arithmetic, so the sum wraps modulo
`2 ^ 64` — clamps to `N` (`std::min`), and cyclically bumps `interval_index_`.
`fuel` bounds the number of loop iterations: when no advance wraps the index
strictly increases below `N` (intervals are at least 1) and `N + 2` iterations
provably suffice; with wrap-around the C++ loop can run longer (or forever), and
the theorems below either exclude wrap by hypothesis or evaluate concrete traces
that are short enough to be exact. -/
def viewGo (N : ℕ) (intervals : List ℕ) : ℕ → ℕ → ℕ → List ℕ
  | 0, _, _ => []
  | fuel + 1, index, intervalIndex =>
    if index = N then []
    else
      index ::
        viewGo N intervals fuel
          (min ((index + intervals.getD intervalIndex 0) % U64) N)
          (if intervalIndex + 1 ≥ intervals.length then 0 else intervalIndex + 1)

/-- Indices visited by iterating a `PatternView` over a container of length `N`
(include/sequence/pattern.hpp, lines 66-147).  The constructor throws when the
pattern's interval list or the container is empty (`none` here).  The mutable
iterator clamps its starting index:
`index_{std::min(index, pattern_view.vec_.size())}`.  The advance inherits
`viewGo`'s `std::size_t` wrap modulo `2 ^ 64`. -/
def patternViewIndices (N : ℕ) (p : Pattern) : Option (List ℕ) :=
  if p.intervals = [] ∨ N = 0 then none
  else some (viewGo N p.intervals (N + 2) (min p.offset N) 0)

/-- Indices visited by iterating a `ConstPatternView` over a container of length `N`
(include/sequence/pattern.hpp, lines 149-239).  Unlike the mutable iterator, the
`ConstIterator` constructor stores its starting index unclamped: `index_(index)`;
the advance wraps modulo `2 ^ 64` exactly as in `viewGo`. -/
def constPatternViewIndices (N : ℕ) (p : Pattern) : Option (List ℕ) :=
  if p.intervals = [] ∨ N = 0 then none
  else some (viewGo N p.intervals (N + 2) p.offset 0)

/-- The index sequence described by the spec's Pattern-Addressing contract, written
exactly as the claim words it: start at `min(offset, N)`, repeatedly add
`intervals[i mod |intervals|]` with `i` counting the steps taken, clamp each
resulting index to `N`, and stop when the index reaches `N`.  This definition is
deliberately independent of `viewGo` (it cycles by `i % length` instead of the
iterator's reset counter) and is the yardstick the views are compared against. -/
def specClaimGo (N : ℕ) (intervals : List ℕ) : ℕ → ℕ → ℕ → List ℕ
  | 0, _, _ => []
  | fuel + 1, index, i =>
    if index = N then []
    else
      index ::
        specClaimGo N intervals fuel
          (min (index + intervals.getD (i % intervals.length) 0) N) (i + 1)

/-- The full claimed index sequence for a pattern over a container of length `N`. -/
def specPatternIndices (N : ℕ) (p : Pattern) : List ℕ :=
  specClaimGo N p.intervals (N + 2) (min p.offset N) 0

/-- The subtraction loop of `pattern_contains` (src/pattern.cpp, lines 64-76).
`index` is a `std::size_t`; the C++ `index -= interval` wraps modulo `2 ^ 64`,
modelled here explicitly.  The source's `if (index < 0) return false;` is dead code
for an unsigned `index` and is kept verbatim. -/
def containsGo : ℕ → List ℕ → Bool
  | index, [] => index == 0
  | index, interval :: rest =>
    if index == 0 then true
    else if index < 0 then false
    else containsGo ((index + (U64 - interval % U64)) % U64) rest

/-- From src/pattern.cpp, lines 50-77: membership test for the infinite cyclic index
set of a pattern.  `pattern_length` is `std::accumulate` over the intervals, whose
`std::size_t` additions wrap modulo `2 ^ 64`.  (When that accumulated length is
zero the C++ `index %= pattern_length` is UB; Lean's `x % 0 = x` convention fills
the gap, and every theorem below assumes the sum does not wrap.) -/
def pattern_contains (p : Pattern) (index : ℕ) : Bool :=
  if index < p.offset then false
  else
    containsGo ((index - p.offset) % (p.intervals.foldl (fun a b => (a + b) % U64) 0))
      p.intervals

/-- Cyclic interval sums: `csumF intervals i0 j` is the total advance of `j`
consecutive pattern steps starting at step counter `i0`. -/
def csumF (intervals : List ℕ) : ℕ → ℕ → ℕ
  | _, 0 => 0
  | i0, j + 1 => intervals.getD (i0 % intervals.length) 0 + csumF intervals (i0 + 1) j

/-- All prefix sums of a list, from `0` up to and including the total sum. -/
def partialSums : List ℕ → List ℕ
  | [] => [0]
  | a :: rest => 0 :: (partialSums rest).map (a + ·)

/-- Model of a `static_cast` from a non-negative floating value to an unsigned
integer: truncation towards zero, i.e. the floor for non-negative input.  (A
negative input would be UB in the C++ source; the model maps it to 0.) -/
def truncCast (q : ℚ) : ℕ := (⌊q⌋).toNat

/-- From include/sequence/measure.hpp, lines 57-66: number of samples in a measure,
`samples_per_beat * beats_per_measure` truncated to `uint32`, with
`samples_per_beat = sample_rate * 60 / bpm` and `beats_per_measure` the time
signature's numerator. -/
def samples_count (measure : Measure) (sample_rate : ℕ) (bpm : ℚ) : ℕ :=
  truncCast ((sample_rate : ℚ) * 60 / bpm * (measure.time_signature.numerator : ℚ))

namespace midi

/-- From include/sequence/midi.hpp: MIDI note number plus 14-bit pitch bend. -/
structure MicrotonalNote where
  note : ℕ
  pitch_bend : ℕ
deriving DecidableEq

instance : Inhabited MicrotonalNote := ⟨⟨60, 8192⟩⟩

/-- The `fractional_note` local of `create_midi_note` (src/midi.cpp, lines 30-49):
`tuning_base` plus the cents offset of the pitch divided by 100.  C++ `int`
division and remainder truncate towards zero (`Int.tdiv` / `Int.tmod`); when the
remainder is negative the interval is looked up at `interval_index + length` and
`tuning.octave` is subtracted from it. -/
def fractional_note_value (interval : ℤ) (tuning : Tuning) (tuning_base : ℚ) : ℚ :=
  let length : ℤ := (tuning.intervals.length : ℤ)
  let octave_offset : ℚ := ((Int.tdiv interval length : ℤ) : ℚ) * tuning.octave
  let interval_offset : ℚ :=
    let interval_index : ℤ := Int.tmod interval length
    if interval_index < 0 then
      tuning.intervals.getD (interval_index + length).toNat 0 - tuning.octave
    else
      tuning.intervals.getD interval_index.toNat 0
  tuning_base + (octave_offset + interval_offset) / 100

/-- From src/midi.cpp, lines 22-56: build a `MicrotonalNote` from a pitch, a tuning
and a fractional base MIDI note.  Throws (`none`) when the tuning is empty.
`std::clamp` keeps the fractional note in `[0, 127]`; `std::modf` splits the
clamped (non-negative) value into integral part and fractional remainder; the
final casts truncate the non-negative results. -/
def create_midi_note (interval : ℤ) (tuning : Tuning) (tuning_base : ℚ) :
    Option MicrotonalNote :=
  if tuning.intervals = [] then none
  else
    let fractional_note := fractional_note_value interval tuning tuning_base
    let clamped : ℚ := min (max fractional_note 0) 127
    let integral : ℤ := ⌊clamped⌋
    let fractional : ℚ := clamped - integral
    some { note := integral.toNat, pitch_bend := truncCast ((1 + fractional) * 8192) }

/-- Claim C2's description of `create_midi_note`, written from the claim's words:
`octave_offset = floor(pitch / L) * tuning.octave` (mathematical floor division,
`Int.fdiv`), `interval_index = pitch mod L` by Euclidean modulo (`Int.emod`), with
`tuning.octave` additionally subtracted from the looked-up interval value when the
raw truncating remainder is negative. -/
def claimC2_create_midi_note (interval : ℤ) (tuning : Tuning) (tuning_base : ℚ) :
    Option MicrotonalNote :=
  if tuning.intervals = [] then none
  else
    let length : ℤ := (tuning.intervals.length : ℤ)
    let octave_offset : ℚ := ((Int.fdiv interval length : ℤ) : ℚ) * tuning.octave
    let interval_index : ℤ := Int.emod interval length
    let interval_offset : ℚ :=
      if Int.tmod interval length < 0 then
        tuning.intervals.getD interval_index.toNat 0 - tuning.octave
      else
        tuning.intervals.getD interval_index.toNat 0
    let fractional_note := tuning_base + (octave_offset + interval_offset) / 100
    let clamped : ℚ := min (max fractional_note 0) 127
    let integral : ℤ := ⌊clamped⌋
    some { note := integral.toNat,
           pitch_bend := truncCast ((1 + (clamped - integral)) * 8192) }

/-- The net effect of the source's truncating division plus conditional octave
subtraction, written with mathematical floor division and Euclidean modulo and
with no conditional correction. -/
def floor_form_fractional_note (interval : ℤ) (tuning : Tuning) (tuning_base : ℚ) :
    ℚ :=
  let length : ℤ := (tuning.intervals.length : ℤ)
  tuning_base +
    (((Int.fdiv interval length : ℤ) : ℚ) * tuning.octave +
      tuning.intervals.getD (Int.emod interval length).toNat 0) / 100

/-- From include/sequence/midi.hpp: the half-open sample range of one note.  The
C++ fields are named `begin` and `end`; `end` is a Lean keyword, hence the
trailing underscores. -/
structure SampleRange where
  begin_ : ℕ
  end_ : ℕ
deriving DecidableEq

instance : Inhabited SampleRange := ⟨⟨0, 0⟩⟩

mutual

/-- From src/midi.cpp, lines 146-178: sample ranges of all notes in a cell.  For a
Note, `delay` and `note_samples` are truncating casts of
`total_samples * note.delay` and `(total_samples - delay) * note.gate`, and one
range `[offset + delay, offset + delay + note_samples)` (truncated to integers) is
emitted.  A Rest emits nothing.  For a Sequence, `samples_per_cell` is the float
quotient `total_samples / cells.size()` (equal division; this code revision's data
model has no weights) and the child loop is `noteSampleInfosSeq`. -/
def note_sample_infos : Cell → ℕ → ℚ → List SampleRange
  | .note n, total_samples, offset =>
    let delay : ℕ := truncCast ((total_samples : ℚ) * n.delay)
    let note_samples : ℕ := truncCast (((total_samples : ℚ) - (delay : ℚ)) * n.gate)
    [{ begin_ := truncCast (offset + (delay : ℚ)),
       end_ := truncCast (offset + (delay : ℚ) + (note_samples : ℚ)) }]
  | .rest, _, _ => []
  | .seq cells, total_samples, offset =>
    noteSampleInfosSeq cells ((total_samples : ℚ) / (cells.length : ℚ)) offset
termination_by c _ _ => sizeOf c

/-- The child loop of the Sequence case of `note_sample_infos`: every child is
recursed into with the truncated cast of `samples_per_cell` while the floating
offset advances by the exact (untruncated) `samples_per_cell`. -/
def noteSampleInfosSeq : List Cell → ℚ → ℚ → List SampleRange
  | [], _, _ => []
  | c :: rest, samples_per_cell, offset =>
    note_sample_infos c (truncCast samples_per_cell) offset ++
      noteSampleInfosSeq rest samples_per_cell (offset + samples_per_cell)
termination_by l _ _ => sizeOf l

end

mutual

/-- From src/midi.cpp, lines 113-130: depth-first, left-to-right list of the Notes
of a cell (Rests skipped). -/
def flatten_notes : Cell → List Note
  | .note n => [n]
  | .rest => []
  | .seq cells => flattenNotesList cells
termination_by c => sizeOf c

/-- Child loop of `flatten_notes` over a sequence's cells. -/
def flattenNotesList : List Cell → List Note
  | [] => []
  | c :: rest => flatten_notes c ++ flattenNotesList rest
termination_by l => sizeOf l

end


/-- From include/sequence/midi.hpp, lines 280-299: the MIDI event variants. -/
inductive Event
  | noteOn (note : ℕ) (velocity : ℕ)
  | noteOff (note : ℕ)
  | pitchBend (value : ℕ)
deriving DecidableEq

/-- A MIDI event paired with a sample offset. -/
abbrev EventTimeline := List (Event × ℕ)

mutual

/-- From src/midi.cpp, lines 58-82: depth-first collection of the `MicrotonalNote`
of every Note in a cell.  Propagates the exception (`none`) of `create_midi_note`
on an empty tuning. -/
def create_midi_note_visitor : Cell → Tuning → ℚ → Option (List MicrotonalNote)
  | .note n, tuning, tuning_base =>
    (create_midi_note n.interval tuning tuning_base).map (fun m => [m])
  | .rest, _, _ => some []
  | .seq cells, tuning, tuning_base =>
    createMidiNoteVisitorList cells tuning tuning_base
termination_by c _ _ => sizeOf c

/-- Child loop of `create_midi_note_visitor` over a sequence's cells. -/
def createMidiNoteVisitorList : List Cell → Tuning → ℚ → Option (List MicrotonalNote)
  | [], _, _ => some []
  | c :: rest, tuning, tuning_base => do
    let r1 ← create_midi_note_visitor c tuning tuning_base
    let r2 ← createMidiNoteVisitorList rest tuning tuning_base
    pure (r1 ++ r2)
termination_by l _ _ => sizeOf l

end

/-- From src/midi.cpp, lines 84-111: phrase-level MIDI-note flattening.  The
source's measure-level overload computes
`base_midi_note = 12 * log2(base_frequency / 440) + 69` from its `base_frequency`
parameter; that transcendental float computation has no exact rational
counterpart, so the embedding takes the resulting `tuning_base` value as its
parameter directly (quantifying over it covers every `base_frequency`). -/
def flatten_and_translate_to_midi_notes :
    Phrase → Tuning → ℚ → Option (List MicrotonalNote)
  | [], _, _ => some []
  | measure :: rest, tuning, tuning_base => do
    let r1 ← create_midi_note_visitor measure.cell tuning tuning_base
    let r2 ← flatten_and_translate_to_midi_notes rest tuning tuning_base
    pure (r1 ++ r2)

/-- From src/midi.cpp, lines 132-144: phrase-level overload of `flatten_notes`. -/
def flatten_notes_phrase : Phrase → List Note
  | [] => []
  | measure :: rest => flatten_notes measure.cell ++ flatten_notes_phrase rest

/-- The measure loop of `flatten_and_translate_to_sample_infos` (src/midi.cpp,
lines 184-195): each measure's cell is processed with its `samples_count` while
the float `sample_offset` advances by that (integer) count. -/
def sampleInfosGo : Phrase → ℕ → ℚ → ℚ → List SampleRange
  | [], _, _, _ => []
  | measure :: rest, sample_rate, bpm, sample_offset =>
    note_sample_infos measure.cell (samples_count measure sample_rate bpm)
        sample_offset ++
      sampleInfosGo rest sample_rate bpm
        (sample_offset + (samples_count measure sample_rate bpm : ℚ))

/-- From src/midi.cpp, lines 180-197: sample ranges of all notes of a phrase,
starting from sample offset 0. -/
def flatten_and_translate_to_sample_infos (phrase : Phrase) (sample_rate : ℕ)
    (bpm : ℚ) : List SampleRange :=
  sampleInfosGo phrase sample_rate bpm 0

/-- From src/midi.cpp, lines 199-229: assemble the event timeline.  For each index
`i` below `ranges.size()` the loop emits `PitchBend` at the range begin, `NoteOn`
with `velocity = static_cast<uint8_t>(notes[i].velocity * 127)` (truncation) at
the same begin, then `NoteOff` at the range end.  The C++ `operator[]` accesses
are modelled with `getD` and the structs' default values; the source asserts the
three flattened vectors have equal lengths, which is proved below. -/
def translate_to_midi_timeline (phrase : Phrase) (sample_rate : ℕ) (bpm : ℚ)
    (tuning : Tuning) (tuning_base : ℚ) : Option EventTimeline :=
  let ranges := flatten_and_translate_to_sample_infos phrase sample_rate bpm
  (flatten_and_translate_to_midi_notes phrase tuning tuning_base).map
    (fun midi_notes =>
      let notes := flatten_notes_phrase phrase
      (List.range ranges.length).flatMap (fun i =>
        let r := ranges.getD i default
        let mn := midi_notes.getD i default
        let velocity : ℕ := truncCast ((notes.getD i default).velocity * 127)
        [(Event.pitchBend mn.pitch_bend, r.begin_),
         (Event.noteOn mn.note velocity, r.begin_),
         (Event.noteOff mn.note, r.end_)]))

end midi


namespace modify

/-- From src/modify.cpp, lines 319-342: rotate the direct children of a Sequence.
The source first negates the amount (`amount *= -1`), then for a non-empty
Sequence computes `(amount % size + size) % size` with C++ truncating `%`
(`Int.tmod`) and calls `std::rotate`, which makes the element at that index the
new first element (`drop k ++ take k`).  Note, Rest and the empty Sequence are
returned unchanged. -/
def rotate (cell : Cell) (amount : ℤ) : Cell :=
  let amount : ℤ := -amount
  match cell with
  | .seq cells =>
    if cells.isEmpty then .seq cells
    else
      let size : ℤ := (cells.length : ℤ)
      let a : ℤ := Int.tmod (Int.tmod amount size + size) size
      .seq (cells.drop a.toNat ++ cells.take a.toNat)
  | c => c

/-- From include/sequence/modify.hpp, lines 231-252: the older inline variant of
`rotate`, identical to the src/modify.cpp version except that it does not negate
`amount` first. -/
def rotate_hpp (cell : Cell) (amount : ℤ) : Cell :=
  match cell with
  | .seq cells =>
    if cells.isEmpty then .seq cells
    else
      let size : ℤ := (cells.length : ℤ)
      let a : ℤ := Int.tmod (Int.tmod amount size + size) size
      .seq (cells.drop a.toNat ++ cells.take a.toNat)
  | c => c

/-- From src/modify.cpp, lines 728-746: flip.  A Note becomes a Rest; a Rest
becomes the note `n` passed to this call.  For a Sequence every child is
transformed by the one-argument call `flip(c)`, which supplies the declaration's
default argument `Note{0, 1.f, 0.f, 1.f}` (include/sequence/modify.hpp, line 758)
instead of the caller's `n`. -/
def flip (cell : Cell) (n : Note) : Cell :=
  match cell with
  | .note _ => .rest
  | .rest => .note n
  | .seq cells => .seq (cells.attach.map (fun c => flip c.1 ⟨0, 1, 0, 1⟩))
termination_by sizeOf cell
decreasing_by
  have h1 := List.sizeOf_lt_of_mem c.2
  simp only [Cell.seq.sizeOf_spec]
  omega

/-- From src/modify.cpp, lines 432-443: build a Sequence of `count` copies of the
cell.  There is no validation: `count == 0` simply yields an empty Sequence.  (The
C++ name is `repeat`, a Lean tactic keyword.) -/
def repeatCell (cell : Cell) (count : ℕ) : Cell :=
  .seq (List.replicate count cell)

/-- From src/modify.cpp, lines 413-430: reverse the direct child order, then
recurse into every child; identity on Note and Rest. -/
def reverse (cell : Cell) : Cell :=
  match cell with
  | .note n => .note n
  | .rest => .rest
  | .seq cells => .seq ((cells.reverse.attach).map (fun c => reverse c.1))
termination_by sizeOf cell
decreasing_by
  have h1 := List.sizeOf_lt_of_mem (List.mem_reverse.mp c.2)
  simp only [Cell.seq.sizeOf_spec]
  omega

end modify

end sequence

namespace sequence

/-- Structural induction principle for `Cell` that hands the inductive hypothesis to
every member of a sequence's child list. -/
theorem Cell.inductionOn (P : Cell → Prop) (hn : ∀ n, P (.note n)) (hr : P .rest)
    (hs : ∀ cells, (∀ c ∈ cells, P c) → P (.seq cells)) : ∀ c, P c
  | .note n => hn n
  | .rest => hr
  | .seq cells => hs cells (fun c hc => Cell.inductionOn P hn hr hs c)
termination_by c => sizeOf c
decreasing_by
  have h1 := List.sizeOf_lt_of_mem hc
  simp only [Cell.seq.sizeOf_spec]
  omega

theorem succ_mod_eq (i m : ℕ) (hm : 0 < m) :
    (i + 1) % m = if i % m + 1 ≥ m then 0 else i % m + 1 := by
  have h1 : i % m < m := Nat.mod_lt _ hm
  by_cases h : i % m + 1 ≥ m
  · have h2 : i % m = m - 1 := by omega
    have h3 : i + 1 = m * (i / m) + m := by
      have := Nat.div_add_mod i m
      omega
    simp only [h, if_true]
    rw [h3]
    rw [show m * (i / m) + m = (i / m + 1) * m by ring]
    exact Nat.mul_mod_left _ _
  · have h3 : i + 1 = m * (i / m) + (i % m + 1) := by
      have := Nat.div_add_mod i m
      omega
    simp only [h, if_false]
    rw [h3, Nat.mul_add_mod]
    exact Nat.mod_eq_of_lt (by omega)

/-- Interval values fetched during iteration are members of the list. -/
theorem getD_mem_of_lt (l : List ℕ) (k : ℕ) (hk : k < l.length) :
    l.getD k 0 ∈ l := by
  rw [List.getD_eq_getElem l 0 hk]
  exact List.getElem_mem hk

theorem viewGo_eq_specClaimGo (N : ℕ) (intervals : List ℕ) (hne : intervals ≠ [])
    (hbound : ∀ v ∈ intervals, v + N ≤ U64) :
    ∀ fuel index i, index ≤ N →
      viewGo N intervals fuel index (i % intervals.length) =
        specClaimGo N intervals fuel index i := by
  have hm : 0 < intervals.length := List.length_pos.mpr hne
  intro fuel
  induction fuel with
  | zero => intro index i _; rfl
  | succ fuel ih =>
    intro index i hle
    simp only [viewGo, specClaimGo]
    by_cases h : index = N
    · simp [h]
    · simp only [h, if_false]
      have ha : intervals.getD (i % intervals.length) 0 + N ≤ U64 :=
        hbound _ (getD_mem_of_lt _ _ (Nat.mod_lt _ hm))
      have hnowrap : (index + intervals.getD (i % intervals.length) 0) % U64 =
          index + intervals.getD (i % intervals.length) 0 :=
        Nat.mod_eq_of_lt (by omega)
      have hk : (if i % intervals.length + 1 ≥ intervals.length then 0
          else i % intervals.length + 1) = (i + 1) % intervals.length :=
        (succ_mod_eq i intervals.length hm).symm
      rw [hnowrap, hk, ih _ (i + 1) (min_le_right _ _)]

theorem specClaimGo_at_N (N : ℕ) (intervals : List ℕ) (fuel i : ℕ) :
    specClaimGo N intervals (fuel + 1) N i = [] := by
  simp [specClaimGo]

theorem csumF_zero (intervals : List ℕ) (i0 : ℕ) : csumF intervals i0 0 = 0 := rfl

theorem csumF_succ (intervals : List ℕ) (i0 j : ℕ) :
    csumF intervals i0 (j + 1) =
      intervals.getD (i0 % intervals.length) 0 + csumF intervals (i0 + 1) j := rfl

/-- Membership characterisation of the claimed visit sequence: starting from state
`(index, i0)` with `index ≤ N` and enough fuel, the indices below `N` that get
visited are exactly `index` plus the cyclic sums of consecutive intervals. -/
theorem mem_specClaimGo (N : ℕ) (intervals : List ℕ) (hne : intervals ≠ [])
    (hpos : ∀ v ∈ intervals, 1 ≤ v) :
    ∀ fuel index i0, index ≤ N → N - index < fuel →
      ∀ x, x < N →
        (x ∈ specClaimGo N intervals fuel index i0 ↔
          ∃ j, x = index + csumF intervals i0 j) := by
  have hm : 0 < intervals.length := List.length_pos.mpr hne
  intro fuel
  induction fuel with
  | zero => intro index i0 _ hfuel; omega
  | succ fuel ih =>
    intro index i0 hle hfuel x hx
    by_cases h : index = N
    · rw [h, specClaimGo_at_N]
      simp only [List.not_mem_nil, false_iff, not_exists]
      intro j hj
      omega
    · have hlt : index < N := lt_of_le_of_ne hle h
      have ha : 1 ≤ intervals.getD (i0 % intervals.length) 0 :=
        hpos _ (getD_mem_of_lt _ _ (Nat.mod_lt _ hm))
      have hunfold : specClaimGo N intervals (fuel + 1) index i0 =
          index :: specClaimGo N intervals fuel
            (min (index + intervals.getD (i0 % intervals.length) 0) N) (i0 + 1) := by
        simp [specClaimGo, h]
      rw [hunfold, List.mem_cons]
      by_cases hstep : index + intervals.getD (i0 % intervals.length) 0 ≤ N
      · rw [min_eq_left hstep, ih _ (i0 + 1) hstep (by omega) x hx]
        constructor
        · rintro (rfl | ⟨j, rfl⟩)
          · exact ⟨0, by rw [csumF_zero]; omega⟩
          · exact ⟨j + 1, by rw [csumF_succ]; omega⟩
        · rintro ⟨j, rfl⟩
          cases j with
          | zero => left; rw [csumF_zero]; omega
          | succ j => right; exact ⟨j, by rw [csumF_succ]; omega⟩
      · rw [min_eq_right (by omega)]
        obtain ⟨fuel', rfl⟩ : ∃ f, fuel = f + 1 := ⟨fuel - 1, by omega⟩
        rw [specClaimGo_at_N]
        simp only [List.not_mem_nil, or_false]
        constructor
        · rintro rfl; exact ⟨0, by rw [csumF_zero]; omega⟩
        · rintro ⟨j, rfl⟩
          cases j with
          | zero => rw [csumF_zero]; omega
          | succ j =>
            exfalso
            have hc : intervals.getD (i0 % intervals.length) 0 ≤
                csumF intervals i0 (j + 1) := by
              rw [csumF_succ]; omega
            omega

theorem U64_pos : 0 < U64 := by norm_num [U64]

/-- Once the running value exceeds the sum of the remaining intervals, the
subtraction loop can never hit zero again. -/
theorem containsGo_gt : ∀ (l : List ℕ) (index : ℕ), index < U64 → l.sum < index →
    containsGo index l = false := by
  intro l
  induction l with
  | nil =>
    intro index _ hgt
    simp only [containsGo, beq_eq_false_iff_ne, ne_eq]
    simp at hgt
    omega
  | cons a rest ih =>
    intro index hlt hgt
    rw [List.sum_cons] at hgt
    have hne : (index == 0) = false := by
      simp only [beq_eq_false_iff_ne, ne_eq]
      omega
    have ha : a < U64 := by omega
    rw [containsGo, hne]
    simp only [Bool.false_eq_true, if_false, Nat.not_lt_zero, if_false]
    have harith : (index + (U64 - a % U64)) % U64 = index - a := by
      rw [Nat.mod_eq_of_lt ha]
      have h1 : index + (U64 - a) = U64 + (index - a) := by omega
      rw [h1, Nat.add_mod_left]
      exact Nat.mod_eq_of_lt (by omega)
    rw [harith]
    exact ih _ (by omega) (by omega)

theorem mem_partialSums (l : List ℕ) (x : ℕ) :
    x ∈ partialSums l ↔ ∃ j, j ≤ l.length ∧ x = (l.take j).sum := by
  induction l generalizing x with
  | nil =>
    simp only [partialSums, List.mem_singleton, List.length_nil]
    constructor
    · rintro rfl; exact ⟨0, le_rfl, rfl⟩
    · rintro ⟨j, hj, rfl⟩
      interval_cases j
      rfl
  | cons a rest ih =>
    simp only [partialSums, List.mem_cons, List.mem_map]
    constructor
    · rintro (rfl | ⟨y, hy, rfl⟩)
      · exact ⟨0, by simp⟩
      · obtain ⟨j, hj, rfl⟩ := ih y |>.mp hy
        exact ⟨j + 1, by simpa using hj, by simp [Nat.add_comm]⟩
    · rintro ⟨j, hj, rfl⟩
      cases j with
      | zero => left; simp
      | succ j =>
        right
        refine ⟨(rest.take j).sum, ih _ |>.mpr ⟨j, by simpa using hj, rfl⟩, ?_⟩
        simp [Nat.add_comm]

/-- The subtraction loop returns `true` exactly on the prefix sums of the interval
list, provided no unsigned wrap-around is possible. -/
theorem containsGo_spec : ∀ (l : List ℕ) (index : ℕ), l.sum < U64 → index < U64 →
    (containsGo index l = true ↔ index ∈ partialSums l) := by
  intro l
  induction l with
  | nil =>
    intro index _ _
    simp only [containsGo, partialSums, List.mem_singleton, beq_iff_eq]
  | cons a rest ih =>
    intro index hsum hlt
    rw [List.sum_cons] at hsum
    by_cases h0 : index = 0
    · subst h0
      simp [containsGo, partialSums]
    · have hne : (index == 0) = false := by simp [h0]
      rw [containsGo, hne]
      simp only [Bool.false_eq_true, if_false, Nat.not_lt_zero, if_false]
      have ha : a < U64 := by omega
      by_cases hge : a ≤ index
      · have harith : (index + (U64 - a % U64)) % U64 = index - a := by
          rw [Nat.mod_eq_of_lt ha]
          have h1 : index + (U64 - a) = U64 + (index - a) := by omega
          rw [h1, Nat.add_mod_left]
          exact Nat.mod_eq_of_lt (by omega)
        rw [harith, ih _ (by omega) (by omega)]
        simp only [partialSums, List.mem_cons, List.mem_map]
        constructor
        · intro hmem
          right
          exact ⟨index - a, hmem, by omega⟩
        · rintro (rfl | ⟨y, hy, rfl⟩)
          · omega
          · have hya : a + y - a = y := by omega
            simpa [hya] using hy
      · have harith : (index + (U64 - a % U64)) % U64 = index + (U64 - a) := by
          rw [Nat.mod_eq_of_lt ha]
          exact Nat.mod_eq_of_lt (by omega)
        rw [harith]
        have hfalse : containsGo (index + (U64 - a)) rest = false :=
          containsGo_gt _ _ (by omega) (by omega)
        rw [hfalse]
        simp only [Bool.false_eq_true, false_iff, partialSums, List.mem_cons,
          List.mem_map]
        rintro (rfl | ⟨y, hy, rfl⟩)
        · exact h0 rfl
        · omega

/-- The wrapping accumulate equals the exact sum when the sum does not overflow. -/
theorem foldl_mod_eq_sum : ∀ (l : List ℕ) (init : ℕ), init + l.sum < U64 →
    l.foldl (fun a b => (a + b) % U64) init = init + l.sum := by
  intro l
  induction l with
  | nil => intro init _; simp
  | cons a rest ih =>
    intro init hlt
    rw [List.sum_cons] at hlt
    rw [List.foldl_cons, Nat.mod_eq_of_lt (by omega), ih _ (by omega),
      List.sum_cons]
    omega

theorem csumF_shift (intervals : List ℕ) :
    ∀ (j i0 : ℕ), csumF intervals (i0 + intervals.length) j = csumF intervals i0 j := by
  intro j
  induction j with
  | zero => intro i0; rfl
  | succ j ih =>
    intro i0
    rw [csumF_succ, csumF_succ, Nat.add_mod_right,
      show i0 + intervals.length + 1 = i0 + 1 + intervals.length by omega, ih]

theorem csumF_split (intervals : List ℕ) :
    ∀ (j1 j2 i0 : ℕ), csumF intervals i0 (j1 + j2) =
      csumF intervals i0 j1 + csumF intervals (i0 + j1) j2 := by
  intro j1
  induction j1 with
  | zero => intro j2 i0; simp [csumF_zero]
  | succ j1 ih =>
    intro j2 i0
    rw [show j1 + 1 + j2 = (j1 + j2) + 1 by omega, csumF_succ, ih, csumF_succ,
      show i0 + 1 + j1 = i0 + (j1 + 1) by omega]
    omega

theorem csumF_take (intervals : List ℕ) :
    ∀ (j i0 : ℕ), i0 + j ≤ intervals.length →
      csumF intervals i0 j = ((intervals.drop i0).take j).sum := by
  intro j
  induction j with
  | zero => intro i0 _; simp [csumF_zero]
  | succ j ih =>
    intro i0 hle
    have hi0 : i0 < intervals.length := by omega
    rw [csumF_succ, Nat.mod_eq_of_lt hi0, ih (i0 + 1) (by omega),
      List.drop_eq_getElem_cons hi0, List.take_succ_cons, List.sum_cons,
      List.getD_eq_getElem intervals 0 hi0]

theorem csumF_cycle (intervals : List ℕ) :
    csumF intervals 0 intervals.length = intervals.sum := by
  rw [csumF_take intervals intervals.length 0 (by omega)]
  simp

theorem csumF_full_split (intervals : List ℕ) :
    ∀ (q r : ℕ), csumF intervals 0 (q * intervals.length + r) =
      q * intervals.sum + csumF intervals 0 r := by
  intro q
  induction q with
  | zero => intro r; simp
  | succ q ih =>
    intro r
    rw [show (q + 1) * intervals.length + r = intervals.length +
      (q * intervals.length + r) by ring, csumF_split,
      show (0 : ℕ) + intervals.length = 0 + intervals.length by rfl]
    rw [show (0 : ℕ) + intervals.length = intervals.length by omega]
    rw [show csumF intervals intervals.length (q * intervals.length + r) =
      csumF intervals (0 + intervals.length) (q * intervals.length + r) by norm_num,
      csumF_shift, ih, csumF_cycle]
    ring

theorem sum_ge_one_of_ne_nil (l : List ℕ) (hne : l ≠ []) (hpos : ∀ v ∈ l, 1 ≤ v) :
    1 ≤ l.sum := by
  obtain ⟨a, t, rfl⟩ := List.exists_cons_of_ne_nil hne
  rw [List.sum_cons]
  have := hpos a (List.mem_cons_self a t)
  omega

theorem sum_take_lt (l : List ℕ) (hpos : ∀ v ∈ l, 1 ≤ v) (j : ℕ)
    (hj : j < l.length) : (l.take j).sum < l.sum := by
  conv_rhs => rw [← List.take_append_drop j l]
  rw [List.sum_append]
  have hne : l.drop j ≠ [] := by
    intro hcontra
    have := List.length_drop j l
    rw [hcontra] at this
    simp at this
    omega
  have h1 : 1 ≤ (l.drop j).sum :=
    sum_ge_one_of_ne_nil _ hne (fun v hv => hpos v (List.mem_of_mem_drop hv))
  omega

/-- Decomposition of the infinite cyclic visit set: a value is a cyclic sum of
consecutive intervals exactly when its residue modulo the pattern length is a
prefix sum of the interval list. -/
theorem csumF_iff_mod_mem (intervals : List ℕ) (hne : intervals ≠ [])
    (hpos : ∀ v ∈ intervals, 1 ≤ v) (x : ℕ) :
    (∃ j, x = csumF intervals 0 j) ↔ x % intervals.sum ∈ partialSums intervals := by
  have hm : 0 < intervals.length := List.length_pos.mpr hne
  have hS : 0 < intervals.sum := sum_ge_one_of_ne_nil _ hne hpos
  constructor
  · rintro ⟨j, rfl⟩
    have hj : j = (j / intervals.length) * intervals.length + j % intervals.length := by
      have hdm := Nat.div_add_mod j intervals.length
      have hcomm : intervals.length * (j / intervals.length) =
          (j / intervals.length) * intervals.length := Nat.mul_comm _ _
      omega
    rw [hj, csumF_full_split]
    have hr : j % intervals.length < intervals.length := Nat.mod_lt _ hm
    have hc : csumF intervals 0 (j % intervals.length) =
        (intervals.take (j % intervals.length)).sum := by
      have := csumF_take intervals (j % intervals.length) 0 (by omega)
      simpa using this
    have hlt : csumF intervals 0 (j % intervals.length) < intervals.sum := by
      rw [hc]; exact sum_take_lt _ hpos _ hr
    rw [Nat.add_comm, Nat.add_mul_mod_self_right, Nat.mod_eq_of_lt hlt]
    exact (mem_partialSums _ _).mpr ⟨j % intervals.length, by omega, hc⟩
  · intro hmem
    obtain ⟨j, hj, hx⟩ := (mem_partialSums _ _).mp hmem
    have hjlt : j < intervals.length := by
      rcases lt_or_eq_of_le hj with h | h
      · exact h
      · exfalso
        rw [h] at hx
        simp at hx
        have := Nat.mod_lt x hS
        omega
    refine ⟨(x / intervals.sum) * intervals.length + j, ?_⟩
    rw [csumF_full_split]
    have hc : csumF intervals 0 j = (intervals.take j).sum := by
      have := csumF_take intervals j 0 (by omega)
      simpa using this
    rw [hc, ← hx]
    have hdm := Nat.div_add_mod x intervals.sum
    have hcomm : (x / intervals.sum) * intervals.sum =
        intervals.sum * (x / intervals.sum) := Nat.mul_comm _ _
    omega

/-- The iterator's reset-based interval counter agrees with the claim's modulo-based
counter when both start at step 0. -/
theorem viewGo_eq_specClaimGo_zero (N : ℕ) (intervals : List ℕ)
    (hne : intervals ≠ []) (hbound : ∀ v ∈ intervals, v + N ≤ U64)
    (fuel index : ℕ) (hle : index ≤ N) :
    viewGo N intervals fuel index 0 = specClaimGo N intervals fuel index 0 := by
  have h := viewGo_eq_specClaimGo N intervals hne hbound fuel index 0 hle
  rwa [Nat.zero_mod] at h

namespace midi

/-- Bounds for the truncating remainder against a positive divisor. -/
theorem tmod_bounds (a L : ℤ) (hL : 0 < L) :
    -L < Int.tmod a L ∧ Int.tmod a L < L := by
  refine ⟨?_, Int.tmod_lt_of_pos a hL⟩
  have hneg : Int.tmod (-a) L = -Int.tmod a L := by
    rw [Int.tmod_def, Int.tmod_def, Int.neg_tdiv]
    ring
  by_cases ha : 0 ≤ a
  · have := Int.tmod_nonneg L ha
    omega
  · have h1 : 0 ≤ Int.tmod (-a) L := Int.tmod_nonneg L (by omega)
    have h2 : Int.tmod (-a) L < L := Int.tmod_lt_of_pos (-a) hL
    omega

/-- Truncating division with the source's conditional octave correction agrees
with mathematical floor division: Euclidean quotient and remainder expressed
through `Int.tdiv` / `Int.tmod`. -/
theorem ediv_emod_from_tdiv (a L : ℤ) (hL : 0 < L) :
    (Int.tmod a L < 0 →
      a / L = Int.tdiv a L - 1 ∧ a % L = Int.tmod a L + L) ∧
    (0 ≤ Int.tmod a L →
      a / L = Int.tdiv a L ∧ a % L = Int.tmod a L) := by
  have ht := Int.tdiv_add_tmod a L
  obtain ⟨hlb, hub⟩ := tmod_bounds a L hL
  constructor
  · intro hr
    have hrep : a = (Int.tmod a L + L) + L * (Int.tdiv a L - 1) := by
      have expand : L * (Int.tdiv a L - 1) = L * Int.tdiv a L - L := by ring
      omega
    constructor
    · conv_lhs => rw [hrep]
      rw [Int.add_mul_ediv_left _ _ (by omega),
        Int.ediv_eq_zero_of_lt (by omega) (by omega)]
      omega
    · conv_lhs => rw [hrep]
      rw [Int.add_mul_emod_self_left, Int.emod_eq_of_lt (by omega) (by omega)]
  · intro hr
    have hrep : a = Int.tmod a L + L * Int.tdiv a L := by omega
    constructor
    · conv_lhs => rw [hrep]
      rw [Int.add_mul_ediv_left _ _ (by omega),
        Int.ediv_eq_zero_of_lt (by omega) (by omega)]
      omega
    · conv_lhs => rw [hrep]
      rw [Int.add_mul_emod_self_left, Int.emod_eq_of_lt (by omega) (by omega)]

/-- The truncating-division-plus-correction computation of the source equals the
floor-division form without any correction. -/
theorem fractional_note_value_eq_floor_form (interval : ℤ) (tuning : Tuning)
    (tuning_base : ℚ) (h : tuning.intervals ≠ []) :
    fractional_note_value interval tuning tuning_base =
      floor_form_fractional_note interval tuning tuning_base := by
  have hlen : 0 < tuning.intervals.length := List.length_pos.mpr h
  have hL : (0 : ℤ) < (tuning.intervals.length : ℤ) := by omega
  have hdm := ediv_emod_from_tdiv interval (tuning.intervals.length : ℤ) hL
  simp only [fractional_note_value, floor_form_fractional_note]
  have hfd : Int.fdiv interval (tuning.intervals.length : ℤ) =
      interval / (tuning.intervals.length : ℤ) := Int.fdiv_eq_ediv _ (by omega)
  have hed : Int.emod interval (tuning.intervals.length : ℤ) =
      interval % (tuning.intervals.length : ℤ) := rfl
  by_cases hr : Int.tmod interval (tuning.intervals.length : ℤ) < 0
  · obtain ⟨hq, hm⟩ := hdm.1 hr
    rw [hfd, hed, hq, hm, if_pos hr]
    push_cast
    ring
  · push_neg at hr
    obtain ⟨hq, hm⟩ := hdm.2 hr
    rw [hfd, hed, hq, hm, if_neg (not_lt.mpr hr)]

/-- Closed form of the sequence loop: the `k`-th child is recursed into with the
truncated per-cell share and offset `offset + k * samples_per_cell`. -/
theorem noteSampleInfosSeq_eq_range (l : List Cell) :
    ∀ (spc offset : ℚ),
      noteSampleInfosSeq l spc offset =
        (List.range l.length).flatMap (fun k =>
          note_sample_infos (l.getD k .rest) (truncCast spc) (offset + k * spc)) := by
  induction l with
  | nil =>
    intro spc offset
    simp [noteSampleInfosSeq]
  | cons c rest ih =>
    intro spc offset
    simp only [noteSampleInfosSeq]
    rw [List.length_cons, List.range_succ_eq_map, List.flatMap_cons,
      List.flatMap_map]
    have h0 : (offset + (0 : ℕ) * spc) = offset := by push_cast; ring
    rw [List.getD_cons_zero, h0, ih spc (offset + spc)]
    congr 1
    apply List.flatMap_congr
    intro k _
    have hoff : offset + ((k + 1 : ℕ) : ℚ) * spc = offset + spc + (k : ℚ) * spc := by
      push_cast
      ring
    simp only [Function.comp_apply, List.getD_cons_succ, Nat.succ_eq_add_one, hoff]


/-- Equal-length invariant between emitted sample ranges and flattened notes, list
level. -/
theorem noteSampleInfosSeq_length (cells : List Cell)
    (ih : ∀ c ∈ cells, ∀ (t : ℕ) (off : ℚ),
      (note_sample_infos c t off).length = (flatten_notes c).length) :
    ∀ (spc off : ℚ),
      (noteSampleInfosSeq cells spc off).length = (flattenNotesList cells).length := by
  induction cells with
  | nil => intro spc off; simp [noteSampleInfosSeq, flattenNotesList]
  | cons c rest ihl =>
    intro spc off
    simp only [noteSampleInfosSeq, flattenNotesList, List.length_append]
    rw [ih c (List.mem_cons_self c rest),
      ihl (fun x hx => ih x (List.mem_cons_of_mem c hx)) spc (off + spc)]

/-- Equal-length invariant between emitted sample ranges and flattened notes. -/
theorem note_sample_infos_length :
    ∀ (c : Cell) (t : ℕ) (off : ℚ),
      (note_sample_infos c t off).length = (flatten_notes c).length := by
  intro c
  induction c using Cell.inductionOn with
  | hn n => intro t off; simp [note_sample_infos, flatten_notes]
  | hr => intro t off; simp [note_sample_infos, flatten_notes]
  | hs cells ih =>
    intro t off
    simp only [note_sample_infos, flatten_notes]
    exact noteSampleInfosSeq_length cells ih _ _

/-- On a non-empty tuning the visitor never throws, and it emits exactly one
`MicrotonalNote` per flattened Note, list level. -/
theorem createMidiNoteVisitorList_spec (tuning : Tuning) (tuning_base : ℚ)
    (cells : List Cell)
    (ih : ∀ c ∈ cells, ∃ l, create_midi_note_visitor c tuning tuning_base = some l ∧
      l.length = (flatten_notes c).length) :
    ∃ l, createMidiNoteVisitorList cells tuning tuning_base = some l ∧
      l.length = (flattenNotesList cells).length := by
  induction cells with
  | nil => exact ⟨[], by simp [createMidiNoteVisitorList], by simp [flattenNotesList]⟩
  | cons c rest ihl =>
    obtain ⟨l1, hc1, hc2⟩ := ih c (List.mem_cons_self c rest)
    obtain ⟨l2, hr1, hr2⟩ := ihl (fun x hx => ih x (List.mem_cons_of_mem c hx))
    refine ⟨l1 ++ l2, ?_, ?_⟩
    · simp [createMidiNoteVisitorList, hc1, hr1]
    · simp [flattenNotesList, hc2, hr2]

/-- On a non-empty tuning the visitor never throws, and it emits exactly one
`MicrotonalNote` per flattened Note. -/
theorem create_midi_note_visitor_spec (tuning : Tuning) (h : tuning.intervals ≠ [])
    (tuning_base : ℚ) :
    ∀ c : Cell, ∃ l, create_midi_note_visitor c tuning tuning_base = some l ∧
      l.length = (flatten_notes c).length := by
  intro c
  induction c using Cell.inductionOn with
  | hn n =>
    have hm : ∃ m, create_midi_note n.interval tuning tuning_base = some m := by
      rw [create_midi_note, if_neg h]
      exact ⟨_, rfl⟩
    obtain ⟨m, hm⟩ := hm
    exact ⟨[m], by simp [create_midi_note_visitor, hm], by simp [flatten_notes]⟩
  | hr => exact ⟨[], by simp [create_midi_note_visitor], by simp [flatten_notes]⟩
  | hs cells ih =>
    obtain ⟨l, h1, h2⟩ := createMidiNoteVisitorList_spec tuning tuning_base cells ih
    exact ⟨l, by simp [create_midi_note_visitor, h1],
      by simp [flatten_notes, h2]⟩

/-- Phrase-level: the MIDI-note flattening succeeds on a non-empty tuning and is
aligned one-to-one with the flattened notes. -/
theorem flatten_and_translate_to_midi_notes_spec (tuning : Tuning)
    (h : tuning.intervals ≠ []) (tuning_base : ℚ) :
    ∀ phrase : Phrase,
      ∃ mns, flatten_and_translate_to_midi_notes phrase tuning tuning_base =
          some mns ∧
        mns.length = (flatten_notes_phrase phrase).length := by
  intro phrase
  induction phrase with
  | nil =>
    exact ⟨[], by simp [flatten_and_translate_to_midi_notes],
      by simp [flatten_notes_phrase]⟩
  | cons measure rest ih =>
    obtain ⟨l1, hc1, hc2⟩ :=
      create_midi_note_visitor_spec tuning h tuning_base measure.cell
    obtain ⟨l2, hr1, hr2⟩ := ih
    refine ⟨l1 ++ l2, ?_, ?_⟩
    · simp [flatten_and_translate_to_midi_notes, hc1, hr1]
    · simp [flatten_notes_phrase, hc2, hr2]

/-- Phrase-level: the sample-range flattening is aligned one-to-one with the
flattened notes. -/
theorem sampleInfosGo_length :
    ∀ (phrase : Phrase) (sample_rate : ℕ) (bpm off : ℚ),
      (sampleInfosGo phrase sample_rate bpm off).length =
        (flatten_notes_phrase phrase).length := by
  intro phrase
  induction phrase with
  | nil =>
    intro sample_rate bpm off
    simp [sampleInfosGo, flatten_notes_phrase]
  | cons measure rest ih =>
    intro sample_rate bpm off
    simp only [sampleInfosGo, flatten_notes_phrase, List.length_append]
    rw [note_sample_infos_length, ih]


end midi


namespace modify

/-- Negating the dividend negates the truncating remainder. -/
theorem tmod_neg_arg (a b : ℤ) : Int.tmod (-a) b = -Int.tmod a b := by
  rw [Int.tmod_def, Int.tmod_def, Int.neg_tdiv]
  ring

/-- The rotation index computed by src/modify.cpp for a positive amount:
`(((-amount) % size + size) % size` equals `(size - amount % size) % size` in
natural-number arithmetic. -/
theorem rotate_index_eq (amount : ℤ) (len : ℕ) (hpos : 0 < amount)
    (hlen : 0 < len) :
    (Int.tmod (Int.tmod (-amount) (len : ℤ) + (len : ℤ)) (len : ℤ)).toNat =
      (len - amount.toNat % len) % len := by
  have hm : amount = (amount.toNat : ℤ) := (Int.toNat_of_nonneg (by omega)).symm
  have h1 : Int.tmod (-amount) (len : ℤ) = -Int.tmod amount (len : ℤ) :=
    tmod_neg_arg _ _
  have h2 : Int.tmod amount (len : ℤ) = amount % (len : ℤ) :=
    Int.tmod_eq_emod (by omega) (by omega)
  have h3 : amount % (len : ℤ) = ((amount.toNat % len : ℕ) : ℤ) := by
    conv_lhs => rw [hm]
    push_cast
    rfl
  rw [h1, h2, h3]
  have hrlt : amount.toNat % len < len := Nat.mod_lt _ hlen
  by_cases hr0 : amount.toNat % len = 0
  · rw [hr0]
    simp
  · have hv : -((amount.toNat % len : ℕ) : ℤ) + (len : ℤ) =
        ((len - amount.toNat % len : ℕ) : ℤ) := by
      push_cast [Nat.cast_sub (le_of_lt hrlt)]
      ring
    have hlt : ((len - amount.toNat % len : ℕ) : ℤ) < (len : ℤ) := by
      have hsub := Nat.sub_lt hlen (Nat.pos_of_ne_zero hr0)
      exact_mod_cast hsub
    rw [hv, Int.tmod_eq_emod (by positivity) (by positivity),
      Int.emod_eq_of_lt (by positivity) hlt, Int.toNat_natCast]
    exact (Nat.mod_eq_of_lt (Nat.sub_lt hlen (Nat.pos_of_ne_zero hr0))).symm

/-- The rotation index computed by the header variant for a positive amount is
just `amount % size`. -/
theorem rotate_hpp_index_eq (amount : ℤ) (len : ℕ) (hpos : 0 < amount)
    (hlen : 0 < len) :
    (Int.tmod (Int.tmod amount (len : ℤ) + (len : ℤ)) (len : ℤ)).toNat =
      amount.toNat % len := by
  have hm : amount = (amount.toNat : ℤ) := (Int.toNat_of_nonneg (by omega)).symm
  have h2 : Int.tmod amount (len : ℤ) = amount % (len : ℤ) :=
    Int.tmod_eq_emod (by omega) (by omega)
  have h3 : amount % (len : ℤ) = ((amount.toNat % len : ℕ) : ℤ) := by
    conv_lhs => rw [hm]
    push_cast
    rfl
  have hrlt : amount.toNat % len < len := Nat.mod_lt _ hlen
  rw [h2, h3, Int.tmod_eq_emod (by omega) (by omega)]
  rw [show ((amount.toNat % len : ℕ) : ℤ) + (len : ℤ) =
    ((amount.toNat % len : ℕ) : ℤ) + (len : ℤ) * 1 by ring,
    Int.add_mul_emod_self_left, Int.emod_eq_of_lt (by omega) (by omega),
    Int.toNat_natCast]

/-- Unfolding equation for `flip` on a Sequence: every child is flipped with the
default note, independently of the caller's note. -/
theorem flip_seq_eq (cells : List Cell) (n : Note) :
    flip (.seq cells) n = .seq (cells.map (fun c => flip c ⟨0, 1, 0, 1⟩)) := by
  rw [flip]
  exact congrArg Cell.seq (List.attach_map_val cells (fun c => flip c ⟨0, 1, 0, 1⟩))

/-- Unfolding equation for `reverse` on a Sequence. -/
theorem reverse_seq_eq (cells : List Cell) :
    reverse (.seq cells) = .seq (cells.reverse.map reverse) := by
  rw [reverse]
  exact congrArg Cell.seq (List.attach_map_val cells.reverse reverse)

end modify

end sequence

/-- Claim C1 (amended): `note_sample_infos` divides a Sequence's duration equally
among its direct children (this code revision's data model has no weights): the
`k`-th child is recursed into with the truncating cast of
`total_samples / cells.size()` while the running offset advances by the exact
rational quotient, `offset + k * (total_samples / cells.size())`.  For a Note,
`delay_samples = trunc(total_samples * delay)` and
`sound_samples = trunc((total_samples - delay_samples) * gate)`, and exactly one
truncated half-open range
`[trunc(offset + delay_samples), trunc(offset + delay_samples + sound_samples))`
is emitted; a Rest emits nothing. -/
theorem claim_C1 :
    (∀ (n : sequence.Note) (total_samples : ℕ) (offset : ℚ),
      sequence.midi.note_sample_infos (.note n) total_samples offset =
        [{ begin_ := sequence.truncCast (offset +
              (sequence.truncCast ((total_samples : ℚ) * n.delay) : ℚ)),
           end_ := sequence.truncCast (offset +
              (sequence.truncCast ((total_samples : ℚ) * n.delay) : ℚ) +
              (sequence.truncCast (((total_samples : ℚ) -
                (sequence.truncCast ((total_samples : ℚ) * n.delay) : ℚ)) *
                n.gate) : ℚ)) }]) ∧
    (∀ (total_samples : ℕ) (offset : ℚ),
      sequence.midi.note_sample_infos .rest total_samples offset = []) ∧
    (∀ (cells : List sequence.Cell) (total_samples : ℕ) (offset : ℚ),
      sequence.midi.note_sample_infos (.seq cells) total_samples offset =
        (List.range cells.length).flatMap (fun k =>
          sequence.midi.note_sample_infos (cells.getD k .rest)
            (sequence.truncCast ((total_samples : ℚ) / (cells.length : ℚ)))
            (offset + k * ((total_samples : ℚ) / (cells.length : ℚ))))) := by
  refine ⟨?_, ?_, ?_⟩
  · intro n total_samples offset
    simp [sequence.midi.note_sample_infos]
  · intro total_samples offset
    simp [sequence.midi.note_sample_infos]
  · intro cells total_samples offset
    simp only [sequence.midi.note_sample_infos]
    exact sequence.midi.noteSampleInfosSeq_eq_range cells _ _

/-- Counterexample for claim C1 as stated: a two-child Sequence (equal implicit
weights) with `total_samples = 3` and Notes with delay 0 and gate 1.  The claim
predicts `child_samples = round(3 * 1/2) = 2` per child with the offset advancing
by that rounded share, i.e. ranges `[0, 2)` and `[2, 4)`; the code truncates the
per-cell share to 1 and advances the offset by the exact 3/2, emitting `[0, 1)`
and `[1, 2)`. -/
theorem claim_C1_counterexample :
    sequence.midi.note_sample_infos
        (.seq [.note ⟨0, 7/10, 0, 1⟩, .note ⟨0, 7/10, 0, 1⟩]) 3 0 =
      [⟨0, 1⟩, ⟨1, 2⟩] ∧
    Int.toNat (round ((3 : ℚ) * (1 / 2))) = 2 ∧
    ([⟨0, 1⟩, ⟨1, 2⟩] : List sequence.midi.SampleRange) ≠ [⟨0, 2⟩, ⟨2, 4⟩] := by
  refine ⟨?_, ?_, by decide⟩
  · norm_num [sequence.midi.note_sample_infos, sequence.midi.noteSampleInfosSeq,
      sequence.truncCast]
    decide
  · rw [round_eq]
    norm_num
    decide

/-- Claim C2 (amended): `create_midi_note` computes `octave_offset` with C++
truncating integer division (not mathematical floor division) and subtracts
`tuning.octave` from the looked-up interval value when the truncating remainder is
negative; the net effect of the two together is exactly
`floor(pitch / L) * octave + intervals[pitch emod L]` with Euclidean
`pitch emod L ∈ [0, L)`.  The resulting semitone offset is added to `tuning_base`
and the fractional note is clamped to `[0, 127]` before being split. -/
theorem claim_C2 (interval : ℤ) (tuning : sequence.Tuning) (tuning_base : ℚ)
    (h : tuning.intervals ≠ []) :
    sequence.midi.fractional_note_value interval tuning tuning_base =
      sequence.midi.floor_form_fractional_note interval tuning tuning_base ∧
    0 ≤ Int.emod interval (tuning.intervals.length : ℤ) ∧
    Int.emod interval (tuning.intervals.length : ℤ) < (tuning.intervals.length : ℤ) ∧
    sequence.midi.create_midi_note interval tuning tuning_base =
      some { note := (⌊min (max (sequence.midi.floor_form_fractional_note interval
                tuning tuning_base) 0) 127⌋).toNat,
             pitch_bend := sequence.truncCast ((1 +
                (min (max (sequence.midi.floor_form_fractional_note interval tuning
                  tuning_base) 0) 127 -
                  (⌊min (max (sequence.midi.floor_form_fractional_note interval
                    tuning tuning_base) 0) 127⌋ : ℤ))) * 8192) } := by
  have hlen : 0 < tuning.intervals.length := List.length_pos.mpr h
  have hL : (0 : ℤ) < (tuning.intervals.length : ℤ) := by omega
  have heq := sequence.midi.fractional_note_value_eq_floor_form interval tuning
    tuning_base h
  refine ⟨heq, Int.emod_nonneg interval (by omega), Int.emod_lt_of_pos interval hL, ?_⟩
  rw [sequence.midi.create_midi_note, if_neg h, heq]

/-- Counterexample for claim C2 as stated: at pitch -1 with the two-interval tuning
`{[0, 600], octave 1200}` and base 60, the claim's floor-division octave offset
combined with the claimed additional octave subtraction predicts MIDI note 42, but
the code (truncating division plus subtraction) produces MIDI note 54. -/
theorem claim_C2_counterexample :
    sequence.midi.create_midi_note (-1) ⟨[0, 600], 1200⟩ 60 = some ⟨54, 8192⟩ ∧
    sequence.midi.claimC2_create_midi_note (-1) ⟨[0, 600], 1200⟩ 60 =
      some ⟨42, 8192⟩ ∧
    sequence.midi.create_midi_note (-1) ⟨[0, 600], 1200⟩ 60 ≠
      sequence.midi.claimC2_create_midi_note (-1) ⟨[0, 600], 1200⟩ 60 := by
  have hfn : sequence.midi.fractional_note_value (-1) ⟨[0, 600], 1200⟩ 60 = 54 := by
    rw [sequence.midi.fractional_note_value]
    rw [show ((((⟨[0, 600], 1200⟩ : sequence.Tuning).intervals.length : ℕ)) : ℤ) = 2
      by norm_num]
    rw [show Int.tdiv (-1) 2 = 0 from by decide,
      show Int.tmod (-1) 2 = -1 from by decide]
    norm_num
  have h1 : sequence.midi.create_midi_note (-1) ⟨[0, 600], 1200⟩ 60 =
      some ⟨54, 8192⟩ := by
    rw [sequence.midi.create_midi_note, if_neg (by decide), hfn]
    norm_num [sequence.truncCast]
    omega
  have h2 : sequence.midi.claimC2_create_midi_note (-1) ⟨[0, 600], 1200⟩ 60 =
      some ⟨42, 8192⟩ := by
    norm_num [sequence.midi.claimC2_create_midi_note, sequence.truncCast,
      show Int.fdiv (-1) 2 = -1 from by decide,
      show Int.tmod (-1) 2 = -1 from by decide,
      show Int.emod (-1) 2 = 1 from by decide]
    decide
  refine ⟨h1, h2, by rw [h1, h2]; decide⟩

/-- Witness instantiating claim C2 at pitch -1 in a two-interval tuning. -/
theorem claim_C2_witness :
    sequence.midi.fractional_note_value (-1) ⟨[0, 600], 1200⟩ 60 =
      sequence.midi.floor_form_fractional_note (-1) ⟨[0, 600], 1200⟩ 60 ∧
    0 ≤ Int.emod (-1) ((2 : ℕ) : ℤ) ∧
    Int.emod (-1) ((2 : ℕ) : ℤ) < ((2 : ℕ) : ℤ) ∧
    sequence.midi.create_midi_note (-1) ⟨[0, 600], 1200⟩ 60 =
      some { note := (⌊min (max (sequence.midi.floor_form_fractional_note (-1)
                ⟨[0, 600], 1200⟩ 60) 0) 127⌋).toNat,
             pitch_bend := sequence.truncCast ((1 +
                (min (max (sequence.midi.floor_form_fractional_note (-1)
                  ⟨[0, 600], 1200⟩ 60) 0) 127 -
                  (⌊min (max (sequence.midi.floor_form_fractional_note (-1)
                    ⟨[0, 600], 1200⟩ 60) 0) 127⌋ : ℤ))) * 8192) } :=
  claim_C2 (-1) ⟨[0, 600], 1200⟩ 60 (by decide)

/-- Claim C8: whenever the computed fractional note is below 0, `create_midi_note`
returns `{note 0, pitch_bend 8192}`, and whenever it is above 127 it returns
`{note 127, pitch_bend 8192}`. -/
theorem claim_C8 (interval : ℤ) (tuning : sequence.Tuning) (tuning_base : ℚ)
    (h : tuning.intervals ≠ []) :
    (sequence.midi.fractional_note_value interval tuning tuning_base < 0 →
      sequence.midi.create_midi_note interval tuning tuning_base =
        some ⟨0, 8192⟩) ∧
    (127 < sequence.midi.fractional_note_value interval tuning tuning_base →
      sequence.midi.create_midi_note interval tuning tuning_base =
        some ⟨127, 8192⟩) := by
  constructor
  · intro hlow
    rw [sequence.midi.create_midi_note, if_neg h]
    have hclamp : min (max (sequence.midi.fractional_note_value interval tuning
        tuning_base) 0) 127 = 0 := by
      rw [max_eq_right (le_of_lt hlow)]
      norm_num
    simp only [hclamp]
    norm_num [sequence.truncCast]
    decide
  · intro hhigh
    rw [sequence.midi.create_midi_note, if_neg h]
    have hclamp : min (max (sequence.midi.fractional_note_value interval tuning
        tuning_base) 0) 127 = 127 := by
      rw [max_eq_left (by linarith), min_eq_right (le_of_lt hhigh)]
    simp only [hclamp]
    norm_num [sequence.truncCast]
    decide

/-- Witness instantiating claim C8 on both saturation sides with a one-interval
tuning: pitch -200 lands below note 0, pitch 200 above note 127. -/
theorem claim_C8_witness :
    sequence.midi.create_midi_note (-200) ⟨[0], 1200⟩ 60 = some ⟨0, 8192⟩ ∧
    sequence.midi.create_midi_note 200 ⟨[0], 1200⟩ 60 = some ⟨127, 8192⟩ := by
  constructor
  · refine (claim_C8 (-200) ⟨[0], 1200⟩ 60 (by decide)).1 ?_
    rw [sequence.midi.fractional_note_value]
    rw [show ((((⟨[0], 1200⟩ : sequence.Tuning).intervals.length : ℕ)) : ℤ) = 1
      by norm_num]
    rw [show Int.tdiv (-200) 1 = -200 from by decide,
      show Int.tmod (-200) 1 = 0 from by decide]
    norm_num
  · refine (claim_C8 200 ⟨[0], 1200⟩ 60 (by decide)).2 ?_
    rw [sequence.midi.fractional_note_value]
    rw [show ((((⟨[0], 1200⟩ : sequence.Tuning).intervals.length : ℕ)) : ℤ) = 1
      by norm_num]
    rw [show Int.tdiv (200) 1 = 200 from by decide,
      show Int.tmod (200) 1 = 0 from by decide]
    norm_num

/-- Claim C3: for every non-empty container of length `N` and every pattern with a
non-empty interval list of values at least 1 — and, since the iterator advances by
`std::size_t` addition that wraps modulo `2 ^ 64`, provided no advance can wrap
(`v + N ≤ 2 ^ 64` for every interval `v`) — the mutable `PatternView` visits
exactly the claimed index sequence (start at `min(offset, N)`, cyclically add the
intervals, clamp to `N`, stop at `N`).  The read-only `ConstPatternView` agrees
whenever `offset ≤ N`, but its constructor does not clamp the starting index, so
for `offset > N` it visits the single out-of-bounds index `offset` instead of
visiting nothing, provided its one advance `offset + intervals[0]` does not wrap
either (these are the corrected parts of the claim). -/
theorem claim_C3 (N : ℕ) (p : sequence.Pattern) (h1 : p.intervals ≠ [])
    (h2 : ∀ v ∈ p.intervals, 1 ≤ v) (h3 : 1 ≤ N)
    (h4 : ∀ v ∈ p.intervals, v + N ≤ sequence.U64) :
    sequence.patternViewIndices N p = some (sequence.specPatternIndices N p) ∧
    (p.offset ≤ N →
      sequence.constPatternViewIndices N p = some (sequence.specPatternIndices N p)) ∧
    (N < p.offset → p.offset + p.intervals.getD 0 0 < sequence.U64 →
      sequence.constPatternViewIndices N p = some [p.offset]) := by
  have hN : ¬N = 0 := by omega
  have hcond : ¬(p.intervals = [] ∨ N = 0) := by
    push_neg
    exact ⟨h1, hN⟩
  refine ⟨?_, ?_, ?_⟩
  · rw [sequence.patternViewIndices, if_neg hcond, sequence.specPatternIndices,
      sequence.viewGo_eq_specClaimGo_zero N p.intervals h1 h4 (N + 2)
        (min p.offset N) (min_le_right _ _)]
  · intro hoff
    rw [sequence.constPatternViewIndices, if_neg hcond, sequence.specPatternIndices,
      min_eq_left hoff,
      sequence.viewGo_eq_specClaimGo_zero N p.intervals h1 h4 (N + 2) p.offset hoff]
  · intro hoff hsum
    rw [sequence.constPatternViewIndices, if_neg hcond]
    have hne0 : ¬p.offset = N := by omega
    have step1 : sequence.viewGo N p.intervals (N + 2) p.offset 0 =
        p.offset :: sequence.viewGo N p.intervals (N + 1)
          (min ((p.offset + p.intervals.getD 0 0) % sequence.U64) N)
          (if 0 + 1 ≥ p.intervals.length then 0 else 0 + 1) := by
      rw [show N + 2 = (N + 1) + 1 from rfl, sequence.viewGo, if_neg hne0]
    have hmin : min ((p.offset + p.intervals.getD 0 0) % sequence.U64) N = N := by
      rw [Nat.mod_eq_of_lt hsum]
      exact min_eq_right (by omega)
    have step2 : sequence.viewGo N p.intervals (N + 1) N
        (if 0 + 1 ≥ p.intervals.length then 0 else 0 + 1) = [] := by
      rw [show N + 1 = N + 1 from rfl, sequence.viewGo, if_pos rfl]
    rw [step1, hmin, step2]

/-- Counterexample for claim C3 as stated, in both corrected directions.  Over a
container of length 1, a pattern with offset 2 makes the `ConstPatternView` visit
the out-of-bounds index 2, while the claimed sequence (shared with the mutable
view) is empty.  And over a container of length 4, the pattern
`{offset 2, intervals [2 ^ 64 - 2]}` makes even the mutable view's `std::size_t`
advance wrap around (`2 + (2 ^ 64 - 2)` wraps to 0), so it visits `[2, 0]`, while
the claimed non-wrapping sequence is `[2]`. -/
theorem claim_C3_counterexample :
    sequence.constPatternViewIndices 1 ⟨2, [1]⟩ = some [2] ∧
    sequence.specPatternIndices 1 ⟨2, [1]⟩ = [] ∧
    sequence.constPatternViewIndices 1 ⟨2, [1]⟩ ≠
      some (sequence.specPatternIndices 1 ⟨2, [1]⟩) ∧
    sequence.patternViewIndices 4 ⟨2, [2 ^ 64 - 2]⟩ = some [2, 0] ∧
    sequence.specPatternIndices 4 ⟨2, [2 ^ 64 - 2]⟩ = [2] ∧
    sequence.patternViewIndices 4 ⟨2, [2 ^ 64 - 2]⟩ ≠
      some (sequence.specPatternIndices 4 ⟨2, [2 ^ 64 - 2]⟩) := by
  refine ⟨by decide, by decide, by decide, by decide, by decide, by decide⟩

/-- Witness instantiating claim C3 at a concrete pattern and container length. -/
theorem claim_C3_witness :
    sequence.patternViewIndices 4 ⟨1, [2, 1]⟩ =
        some (sequence.specPatternIndices 4 ⟨1, [2, 1]⟩) ∧
    ((1 : ℕ) ≤ 4 → sequence.constPatternViewIndices 4 ⟨1, [2, 1]⟩ =
        some (sequence.specPatternIndices 4 ⟨1, [2, 1]⟩)) ∧
    ((4 : ℕ) < 1 → (1 : ℕ) + [2, 1].getD 0 0 < sequence.U64 →
        sequence.constPatternViewIndices 4 ⟨1, [2, 1]⟩ = some [1]) :=
  claim_C3 4 ⟨1, [2, 1]⟩ (by decide) (by decide) (by decide) (by decide)

/-- Claim C10 (amended): `pattern_contains` decides exactly membership in the index
sequence visited by a `PatternView` over a length-`N` container, for every in-range
index, provided no `std::size_t` arithmetic wraps: the hypothesis
`p.intervals.sum < 2 ^ 64` says the `std::accumulate` pattern length does not wrap,
and `v + N ≤ 2 ^ 64` for every interval `v` says no iterator advance
`index_ += interval` wraps.  The claim as stated, without these provisos, is false
of the code (`claim_C10_counterexample`). -/
theorem claim_C10 (N : ℕ) (p : sequence.Pattern) (x : ℕ) (l : List ℕ)
    (h1 : p.intervals ≠ []) (h2 : ∀ v ∈ p.intervals, 1 ≤ v)
    (h3 : p.intervals.sum < sequence.U64)
    (h3b : ∀ v ∈ p.intervals, v + N ≤ sequence.U64)
    (h4 : sequence.patternViewIndices N p = some l) (h5 : x < N) :
    (sequence.pattern_contains p x = true ↔ x ∈ l) := by
  have hm : 0 < p.intervals.length := List.length_pos.mpr h1
  have hS : 1 ≤ p.intervals.sum := sequence.sum_ge_one_of_ne_nil _ h1 h2
  by_cases hc : p.intervals = [] ∨ N = 0
  · rw [sequence.patternViewIndices, if_pos hc] at h4
    exact absurd h4 (by simp)
  · rw [sequence.patternViewIndices, if_neg hc, Option.some.injEq] at h4
    have hfold : p.intervals.foldl (fun a b => (a + b) % sequence.U64) 0 =
        p.intervals.sum := by
      have h := sequence.foldl_mod_eq_sum p.intervals 0 (by omega)
      simpa using h
    subst h4
    rw [sequence.viewGo_eq_specClaimGo_zero N p.intervals h1 h3b (N + 2)
      (min p.offset N) (min_le_right _ _)]
    by_cases hoff : p.offset ≤ N
    · rw [min_eq_left hoff]
      rw [sequence.mem_specClaimGo N p.intervals h1 h2 (N + 2) p.offset 0 hoff
        (by omega) x h5]
      by_cases hxo : x < p.offset
      · rw [sequence.pattern_contains, if_pos hxo]
        simp only [Bool.false_eq_true, false_iff, not_exists]
        intro j hj
        omega
      · rw [sequence.pattern_contains, if_neg hxo, hfold]
        have harg : (x - p.offset) % p.intervals.sum < sequence.U64 := by
          have := Nat.mod_lt (x - p.offset) hS
          omega
        rw [sequence.containsGo_spec p.intervals _ h3 harg]
        rw [← sequence.csumF_iff_mod_mem p.intervals h1 h2 (x - p.offset)]
        constructor
        · rintro ⟨j, hj⟩
          exact ⟨j, by omega⟩
        · rintro ⟨j, hj⟩
          exact ⟨j, by omega⟩
    · have hmin : min p.offset N = N := min_eq_right (by omega)
      rw [hmin, sequence.specClaimGo_at_N]
      simp only [List.not_mem_nil, iff_false]
      rw [sequence.pattern_contains, if_pos (by omega)]
      simp

/-- Counterexample for claim C10 as stated: over a container of length 4, the
pattern `{offset 2, intervals [2 ^ 64 - 2]}` makes the view's `std::size_t` advance
wrap around, so index 0 is visited (`patternViewIndices` gives `[2, 0]`), yet
`pattern_contains` rejects 0 because it is below the offset — so visiting and
`pattern_contains` disagree at the in-range index 0. -/
theorem claim_C10_counterexample :
    sequence.patternViewIndices 4 ⟨2, [2 ^ 64 - 2]⟩ = some [2, 0] ∧
    sequence.pattern_contains ⟨2, [2 ^ 64 - 2]⟩ 0 = false ∧
    ¬(sequence.pattern_contains ⟨2, [2 ^ 64 - 2]⟩ 0 = true ↔ (0 : ℕ) ∈ [2, 0]) := by
  refine ⟨by decide, by decide, by decide⟩

/-- Witness instantiating claim C10: index 3 is visited by the pattern
`{offset 1, intervals [2]}` over a container of length 6. -/
theorem claim_C10_witness :
    sequence.pattern_contains ⟨1, [2]⟩ 3 = true ↔ (3 : ℕ) ∈ [1, 3, 5] :=
  claim_C10 6 ⟨1, [2]⟩ 3 [1, 3, 5] (by decide) (by decide) (by decide) (by decide)
    (by decide) (by decide)

/-- Claim C4 (amended): for every phrase, `translate_to_midi_timeline` emits, for
the i-th Note in depth-first left-to-right traversal order (Rests excluded),
exactly three consecutive events in this order: `PitchBend` at the note's begin
sample, then `NoteOn` with `velocity = trunc(note.velocity * 127)` (truncating
cast, not rounding) at the same begin sample, then `NoteOff` at the end sample.
The three flattened vectors (ranges, microtonal notes, raw notes) are aligned: all
have one entry per flattened Note. -/
theorem claim_C4 (phrase : sequence.Phrase) (sample_rate : ℕ) (bpm : ℚ)
    (tuning : sequence.Tuning) (tuning_base : ℚ) (h : tuning.intervals ≠ []) :
    ∃ tl mns,
      sequence.midi.flatten_and_translate_to_midi_notes phrase tuning tuning_base =
          some mns ∧
      sequence.midi.translate_to_midi_timeline phrase sample_rate bpm tuning
          tuning_base = some tl ∧
      mns.length = (sequence.midi.flatten_notes_phrase phrase).length ∧
      (sequence.midi.flatten_and_translate_to_sample_infos phrase sample_rate
          bpm).length = (sequence.midi.flatten_notes_phrase phrase).length ∧
      tl = (List.range (sequence.midi.flatten_notes_phrase phrase).length).flatMap
        (fun i =>
          [(sequence.midi.Event.pitchBend
              ((mns.getD i default).pitch_bend),
            ((sequence.midi.flatten_and_translate_to_sample_infos phrase
              sample_rate bpm).getD i default).begin_),
           (sequence.midi.Event.noteOn ((mns.getD i default).note)
              (sequence.truncCast
                (((sequence.midi.flatten_notes_phrase phrase).getD i
                  default).velocity * 127)),
            ((sequence.midi.flatten_and_translate_to_sample_infos phrase
              sample_rate bpm).getD i default).begin_),
           (sequence.midi.Event.noteOff ((mns.getD i default).note),
            ((sequence.midi.flatten_and_translate_to_sample_infos phrase
              sample_rate bpm).getD i default).end_)]) := by
  obtain ⟨mns, hm, hlen⟩ :=
    sequence.midi.flatten_and_translate_to_midi_notes_spec tuning h tuning_base
      phrase
  have hrlen : (sequence.midi.flatten_and_translate_to_sample_infos phrase
      sample_rate bpm).length =
      (sequence.midi.flatten_notes_phrase phrase).length := by
    rw [sequence.midi.flatten_and_translate_to_sample_infos]
    exact sequence.midi.sampleInfosGo_length phrase sample_rate bpm 0
  refine ⟨_, mns, hm, ?_, hlen, hrlen, rfl⟩
  simp only [sequence.midi.translate_to_midi_timeline, hm, Option.map_some']
  rw [hrlen]

/-- Counterexample for claim C4 as stated: a phrase with a single Note of velocity
7/10.  The code's NoteOn velocity is the truncating cast
`trunc((7/10) * 127) = 88`, while the claim's `round(note.velocity * 127)` is 89
(midi.cpp line 221 uses `static_cast<std::uint8_t>`). -/
theorem claim_C4_counterexample :
    sequence.midi.translate_to_midi_timeline
        [⟨.note ⟨0, 7/10, 0, 1⟩, ⟨1, 4⟩⟩] 8 60 ⟨[0], 1200⟩ 60 =
      some [(.pitchBend 8192, 0), (.noteOn 60 88, 0), (.noteOff 60, 8)] ∧
    sequence.truncCast ((7/10 : ℚ) * 127) = 88 ∧
    Int.toNat (round ((7/10 : ℚ) * 127)) = 89 ∧
    (88 : ℕ) ≠ 89 := by
  refine ⟨?_, ?_, ?_, by decide⟩
  · norm_num [sequence.midi.translate_to_midi_timeline,
      sequence.midi.flatten_and_translate_to_sample_infos,
      sequence.midi.sampleInfosGo, sequence.samples_count,
      sequence.midi.note_sample_infos,
      sequence.midi.flatten_and_translate_to_midi_notes,
      sequence.midi.create_midi_note_visitor, sequence.midi.create_midi_note,
      sequence.midi.fractional_note_value, sequence.midi.flatten_notes_phrase,
      sequence.midi.flatten_notes, sequence.truncCast, List.range_succ,
      show Int.tdiv 0 1 = 0 from by decide, show Int.tmod 0 1 = 0 from by decide]
    decide
  · norm_num [sequence.truncCast]
    decide
  · rw [round_eq]
    norm_num
    decide

/-- Witness instantiating claim C4 on a concrete (empty) phrase and a one-interval
tuning. -/
theorem claim_C4_witness :
    ∃ tl mns,
      sequence.midi.flatten_and_translate_to_midi_notes ([] : sequence.Phrase)
          ⟨[0], 1200⟩ 60 = some mns ∧
      sequence.midi.translate_to_midi_timeline ([] : sequence.Phrase) 8 60
          ⟨[0], 1200⟩ 60 = some tl ∧
      mns.length =
        (sequence.midi.flatten_notes_phrase ([] : sequence.Phrase)).length ∧
      (sequence.midi.flatten_and_translate_to_sample_infos ([] : sequence.Phrase)
          8 60).length =
        (sequence.midi.flatten_notes_phrase ([] : sequence.Phrase)).length ∧
      tl = (List.range
          (sequence.midi.flatten_notes_phrase ([] : sequence.Phrase)).length).flatMap
        (fun i =>
          [(sequence.midi.Event.pitchBend
              ((mns.getD i default).pitch_bend),
            ((sequence.midi.flatten_and_translate_to_sample_infos
              ([] : sequence.Phrase) 8 60).getD i default).begin_),
           (sequence.midi.Event.noteOn ((mns.getD i default).note)
              (sequence.truncCast
                (((sequence.midi.flatten_notes_phrase
                  ([] : sequence.Phrase)).getD i default).velocity * 127)),
            ((sequence.midi.flatten_and_translate_to_sample_infos
              ([] : sequence.Phrase) 8 60).getD i default).begin_),
           (sequence.midi.Event.noteOff ((mns.getD i default).note),
            ((sequence.midi.flatten_and_translate_to_sample_infos
              ([] : sequence.Phrase) 8 60).getD i default).end_)]) :=
  claim_C4 [] 8 60 ⟨[0], 1200⟩ 60 (by decide)

/-- Claim C5 (amended): for a non-empty Sequence of size S and positive amount, the
src/modify.cpp `rotate` negates the amount first, so the element at original index
`(S - amount mod S) mod S` becomes the first element (a right rotation; the
element at `(-amount) mod S` in Euclidean terms).  The direct children are only
cyclically reordered (same multiset, no recursion into child Sequences), and
`rotate` is a no-op on Note and Rest.  The older inline variant in
include/sequence/modify.hpp lacks the negation and matches the original claim
(element at `amount mod S` becomes first). -/
theorem claim_C5 (cells : List sequence.Cell) (amount : ℤ)
    (h1 : cells ≠ []) (h2 : 0 < amount) :
    (sequence.modify.rotate (.seq cells) amount =
      .seq (cells.drop ((cells.length - amount.toNat % cells.length) %
          cells.length) ++
        cells.take ((cells.length - amount.toNat % cells.length) %
          cells.length))) ∧
    (∃ cells', sequence.modify.rotate (.seq cells) amount = .seq cells' ∧
      cells'.Perm cells) ∧
    (sequence.modify.rotate_hpp (.seq cells) amount =
      .seq (cells.drop (amount.toNat % cells.length) ++
        cells.take (amount.toNat % cells.length))) ∧
    (∀ n, sequence.modify.rotate (.note n) amount = .note n) ∧
    sequence.modify.rotate .rest amount = .rest := by
  have hlen : 0 < cells.length := List.length_pos.mpr h1
  have hne : cells.isEmpty = false := by
    rw [List.isEmpty_eq_false_iff_exists_mem]
    obtain ⟨a, t, rfl⟩ := List.exists_cons_of_ne_nil h1
    exact ⟨a, List.mem_cons_self a t⟩
  have hcpp : sequence.modify.rotate (.seq cells) amount =
      .seq (cells.drop ((cells.length - amount.toNat % cells.length) %
          cells.length) ++
        cells.take ((cells.length - amount.toNat % cells.length) %
          cells.length)) := by
    rw [sequence.modify.rotate]
    simp only [hne, Bool.false_eq_true, if_false,
      sequence.modify.rotate_index_eq amount cells.length h2 hlen]
  refine ⟨hcpp, ?_, ?_, fun n => rfl, rfl⟩
  · refine ⟨_, hcpp, ?_⟩
    have hk : (cells.length - amount.toNat % cells.length) % cells.length ≤
        cells.length := le_of_lt (Nat.mod_lt _ hlen)
    rw [← List.rotate_eq_drop_append_take hk]
    exact List.rotate_perm cells _
  · rw [sequence.modify.rotate_hpp]
    simp only [hne, Bool.false_eq_true, if_false,
      sequence.modify.rotate_hpp_index_eq amount cells.length h2 hlen]

/-- Counterexample for claim C5 as stated: rotating a three-note Sequence by 1
makes the LAST element first (src/modify.cpp negates the amount; the tests at
test/modify.test.cpp expect exactly this right shift), while the claim predicts
the element at index 1 mod 3 = 1 first. -/
theorem claim_C5_counterexample :
    sequence.modify.rotate
        (.seq [.note ⟨0, 7/10, 0, 1⟩, .note ⟨1, 7/10, 0, 1⟩,
          .note ⟨2, 7/10, 0, 1⟩]) 1 =
      .seq [.note ⟨2, 7/10, 0, 1⟩, .note ⟨0, 7/10, 0, 1⟩,
        .note ⟨1, 7/10, 0, 1⟩] ∧
    (sequence.Cell.seq [.note ⟨2, 7/10, 0, 1⟩, .note ⟨0, 7/10, 0, 1⟩,
        .note ⟨1, 7/10, 0, 1⟩] ≠
      .seq [.note ⟨1, 7/10, 0, 1⟩, .note ⟨2, 7/10, 0, 1⟩,
        .note ⟨0, 7/10, 0, 1⟩]) := by
  constructor
  · rfl
  · simp only [ne_eq, sequence.Cell.seq.injEq, List.cons.injEq,
      sequence.Cell.note.injEq, sequence.Note.mk.injEq]
    intro hcontra
    omega

/-- Witness instantiating claim C5 on a concrete three-note Sequence with
amount 1. -/
theorem claim_C5_witness :
    (sequence.modify.rotate
        (.seq [.note ⟨0, 7/10, 0, 1⟩, .note ⟨1, 7/10, 0, 1⟩,
          .note ⟨2, 7/10, 0, 1⟩]) 1 =
      .seq [.note ⟨2, 7/10, 0, 1⟩, .note ⟨0, 7/10, 0, 1⟩,
        .note ⟨1, 7/10, 0, 1⟩]) ∧
    (∃ cells', sequence.modify.rotate
        (.seq [.note ⟨0, 7/10, 0, 1⟩, .note ⟨1, 7/10, 0, 1⟩,
          .note ⟨2, 7/10, 0, 1⟩]) 1 = .seq cells' ∧
      cells'.Perm [.note ⟨0, 7/10, 0, 1⟩, .note ⟨1, 7/10, 0, 1⟩,
        .note ⟨2, 7/10, 0, 1⟩]) ∧
    (sequence.modify.rotate_hpp
        (.seq [.note ⟨0, 7/10, 0, 1⟩, .note ⟨1, 7/10, 0, 1⟩,
          .note ⟨2, 7/10, 0, 1⟩]) 1 =
      .seq [.note ⟨1, 7/10, 0, 1⟩, .note ⟨2, 7/10, 0, 1⟩,
        .note ⟨0, 7/10, 0, 1⟩]) ∧
    (∀ n, sequence.modify.rotate (.note n) 1 = .note n) ∧
    sequence.modify.rotate .rest 1 = .rest :=
  claim_C5 [.note ⟨0, 7/10, 0, 1⟩, .note ⟨1, 7/10, 0, 1⟩, .note ⟨2, 7/10, 0, 1⟩] 1
    (by simp) (by decide)

/-- Claim C6 (amended): flip replaces every Note with a Rest and a TOP-LEVEL Rest
with the given note `n`; but the recursion into Sequence children calls the
one-argument `flip(c)`, so every Rest inside a Sequence child (at any depth) is
replaced with the default `Note{0, 1.0, 0.0, 1.0}` instead of `n` — the result on
a Sequence is independent of the given note. -/
theorem claim_C6 :
    (∀ (x : sequence.Note) (n : sequence.Note),
      sequence.modify.flip (.note x) n = .rest) ∧
    (∀ n : sequence.Note, sequence.modify.flip .rest n = .note n) ∧
    (∀ (cells : List sequence.Cell) (n : sequence.Note),
      sequence.modify.flip (.seq cells) n =
        .seq (cells.map (fun c => sequence.modify.flip c ⟨0, 1, 0, 1⟩))) ∧
    (∀ (cells : List sequence.Cell) (n n' : sequence.Note),
      sequence.modify.flip (.seq cells) n =
        sequence.modify.flip (.seq cells) n') := by
  refine ⟨fun x n => by rw [sequence.modify.flip],
    fun n => by rw [sequence.modify.flip],
    fun cells n => sequence.modify.flip_seq_eq cells n,
    fun cells n n' => ?_⟩
  rw [sequence.modify.flip_seq_eq, sequence.modify.flip_seq_eq]

/-- Counterexample for claim C6 as stated: flipping a Sequence containing a Rest
with the caller's note `{5, 1/2, 0, 1/2}` produces the default note
`{0, 1, 0, 1}` inside the Sequence, not the given note. -/
theorem claim_C6_counterexample :
    sequence.modify.flip (.seq [.rest]) ⟨5, 1/2, 0, 1/2⟩ =
      .seq [.note ⟨0, 1, 0, 1⟩] ∧
    (sequence.Cell.seq [.note ⟨0, 1, 0, 1⟩] ≠
      .seq [.note ⟨5, 1/2, 0, 1/2⟩]) := by
  constructor
  · rw [sequence.modify.flip_seq_eq, List.map_cons, List.map_nil,
      sequence.modify.flip]
  · simp only [ne_eq, sequence.Cell.seq.injEq, List.cons.injEq,
      sequence.Cell.note.injEq, sequence.Note.mk.injEq]
    intro hcontra
    norm_num at hcontra

/-- Claim C7: contrary to the claim (and to the test suite at
test/modify.test.cpp:1038, which expects std::invalid_argument), `repeat` never
throws: count 0 yields an empty Sequence, and in general the result is a Sequence
of exactly `count` copies of the cell. -/
theorem claim_C7 :
    sequence.modify.repeatCell .rest 0 = .seq [] ∧
    (∀ (cell : sequence.Cell) (count : ℕ), ∃ cells,
      sequence.modify.repeatCell cell count = .seq cells ∧
      cells.length = count ∧ ∀ c ∈ cells, c = cell) := by
  refine ⟨rfl, fun cell count => ⟨List.replicate count cell, rfl,
    List.length_replicate count cell, fun c hc => List.eq_of_mem_replicate hc⟩⟩

/-- Claim C9: reverse is an involution; it reverses the direct child order at
every nesting level and is the identity on Note and Rest. -/
theorem claim_C9 :
    (∀ cell : sequence.Cell,
      sequence.modify.reverse (sequence.modify.reverse cell) = cell) ∧
    (∀ cells : List sequence.Cell,
      sequence.modify.reverse (.seq cells) =
        .seq (cells.reverse.map sequence.modify.reverse)) ∧
    (∀ n : sequence.Note, sequence.modify.reverse (.note n) = .note n) ∧
    sequence.modify.reverse .rest = .rest := by
  refine ⟨?_, fun cells => sequence.modify.reverse_seq_eq cells,
    fun n => by rw [sequence.modify.reverse], by rw [sequence.modify.reverse]⟩
  intro cell
  induction cell using sequence.Cell.inductionOn with
  | hn n => rw [sequence.modify.reverse, sequence.modify.reverse]
  | hr => rw [sequence.modify.reverse, sequence.modify.reverse]
  | hs cells ih =>
    rw [sequence.modify.reverse_seq_eq, sequence.modify.reverse_seq_eq]
    congr 1
    rw [← List.map_reverse, List.reverse_reverse, List.map_map]
    calc cells.map (sequence.modify.reverse ∘ sequence.modify.reverse)
        = cells.map id := List.map_congr_left (fun c hc => ih c hc)
      _ = cells := List.map_id cells
